import Mathlib

/-!
Verification development for the YAML job exporter
(`src/dbt_jobs_as_code/exporter/export.py`).

Python strings are modelled as `List Char`; Python dicts whose contents the
exporter inspects are modelled as association lists; the job payloads the
exporter treats as opaque are modelled by a type parameter.  Machinery that
the repository treats as an external collaborator (the YAML parse/dump
primitives, file I/O, logging) is passed in as a parameter or omitted.
-/

namespace Export

/-! ### Definitions: `normalize_job_name_for_identifier` (lines 10-27) -/

/-- Membership in the regex character class `[a-z0-9_]` used by
`re.sub(r'[^a-z0-9_]', '_', normalized)` in `normalize_job_name_for_identifier`. -/
def isAllowed (c : Char) : Bool :=
  (97 ≤ c.toNat && c.toNat ≤ 122) || (48 ≤ c.toNat && c.toNat ≤ 57) || c = '_'

/-- `normalized.replace(" ", "_")`: single-character replacement is pointwise. -/
def replaceSpaces (l : List Char) : List Char :=
  l.map fun c => if c = ' ' then '_' else c

/-- `re.sub(r'[^a-z0-9_]', '_', normalized)`: every character outside the
class is replaced by an underscore. -/
def substDisallowed (l : List Char) : List Char :=
  l.map fun c => if isAllowed c then c else '_'

/-- `re.sub(r'_+', '_', normalized)`: collapse each run of underscores to a
single underscore.  Formulated over adjacent pairs: an underscore immediately
followed by another underscore is dropped. -/
def collapseUnderscores : List Char → List Char
  | [] => []
  | [c] => [c]
  | c1 :: c2 :: rest =>
    if c1 = '_' && c2 = '_' then collapseUnderscores (c2 :: rest)
    else c1 :: collapseUnderscores (c2 :: rest)

/-- `normalized.strip('_')`: drop underscores from both ends. -/
def stripUnderscores (l : List Char) : List Char :=
  ((l.dropWhile (· = '_')).reverse.dropWhile (· = '_')).reverse

/-- `normalize_job_name_for_identifier` from `export.py`: lowercase
(`str.lower`, of which `Char.toLower` is the basic-latin case mapping the
claims exercise), then spaces to underscores, then the character-class
substitution, then underscore collapsing, then stripping. -/
def normalize_job_name_for_identifier (l : List Char) : List Char :=
  stripUnderscores (collapseUnderscores (substDisallowed (replaceSpaces (l.map Char.toLower))))

/-- Adjacent-pair check: `true` iff the list never contains two consecutive
underscores (the shape enforced by `re.sub(r'_+', '_', ...)`). -/
def noDouble : List Char → Bool
  | c1 :: c2 :: rest => !(c1 = '_' && c2 = '_') && noDouble (c2 :: rest)
  | _ => true

/-! ### Definitions: the key allocator of `export_jobs_yml` (lines 80-97) -/

/-- Decimal digits of `n`, most significant first, with structural fuel so the
definition evaluates by `rfl`; `decRepr` always supplies enough fuel. -/
def decDigits : Nat → Nat → List Char
  | 0, _ => []
  | fuel + 1, n =>
    if n < 10 then [Nat.digitChar n]
    else decDigits fuel (n / 10) ++ [Nat.digitChar (n % 10)]

/-- Decimal rendering of a natural number, as in the f-string
`f"{base_key}_{counter}"`. -/
def decRepr (n : Nat) : List Char := decDigits (n + 1) n

/-- Decode a digit list; used only to prove `decRepr` injective. -/
def decVal (l : List Char) : Nat := l.foldl (fun acc c => acc * 10 + (c.toNat - 48)) 0

/-- The suffixed key `f"{base_key}_{counter}"`. -/
def sfx (base : List Char) (k : Nat) : List Char := base ++ '_' :: decRepr k

/-- The probing loop
`while yaml_key in user_keys: yaml_key = f"{base_key}_{counter}"; counter += 1`,
with structural fuel; `allocKey` supplies fuel `used.length + 1`, which
`allocLoop_spec` shows is enough for the loop to reach a free key. -/
def allocLoop (used : List (List Char)) (base : List Char) : Nat → Nat → List Char
  | 0, counter => sfx base counter
  | fuel + 1, counter =>
    if sfx base counter ∈ used then allocLoop used base fuel (counter + 1)
    else sfx base counter

/-- The candidate keys the loop would try with the given fuel, in order. -/
def cands (base : List Char) : Nat → Nat → List (List Char)
  | 0, _ => []
  | fuel + 1, counter => sfx base counter :: cands base fuel (counter + 1)

/-- The key allocator of `export_jobs_yml`:
`yaml_key = base_key; counter = 1; while yaml_key in user_keys: ...`.
On loop exit, `counter > 1` is equivalent to `base ∈ used`. -/
def allocKey (used : List (List Char)) (base : List Char) : List Char :=
  if base ∈ used then allocLoop used base (used.length + 1) 1 else base

/-! ### Definitions: `escape_curly_braces` / `unescape_curly_braces`
(lines 131-147) -/

/-- Left-to-right, non-overlapping replacement of `pat` by `repl`, as Python
`str.replace`; structural fuel (one unit per character consumed) so concrete
instances evaluate by `rfl`; `replaceAll` supplies `s.length`, always enough. -/
def replaceAllGo (pat repl : List Char) : Nat → List Char → List Char
  | _, [] => []
  | 0, s => s
  | fuel + 1, c :: rest =>
    if pat ≠ [] ∧ pat.isPrefixOf (c :: rest) then
      repl ++ replaceAllGo pat repl fuel ((c :: rest).drop pat.length)
    else c :: replaceAllGo pat repl fuel rest

/-- Python `s.replace(pat, repl)`. -/
def replaceAll (pat repl s : List Char) : List Char := replaceAllGo pat repl s.length s

/-- `escape_curly_braces`: `yaml_str.replace("\x7b", "<[<").replace("\x7d", ">]>")`. -/
def escape_curly_braces (s : List Char) : List Char :=
  replaceAll ['\x7d'] (">]>").data (replaceAll ['\x7b'] ("<[<").data s)

/-- `unescape_curly_braces`: `yaml_str.replace("<[<", "\x7b").replace(">]>", "\x7d")`. -/
def unescape_curly_braces (s : List Char) : List Char :=
  replaceAll (">]>").data ['\x7d'] (replaceAll ("<[<").data ['\x7b'] s)

/-- The per-character encoding that `escape_curly_braces` amounts to (both of
its patterns are single characters); used in proofs via
`escape_curly_braces_eq_flatMap`. -/
def escChar (c : Char) : List Char :=
  if c = '\x7b' then ("<[<").data else if c = '\x7d' then (">]>").data else [c]

/-! ### Definitions: the export pipeline `export_jobs_yml` (lines 57-128) -/

/-- A job definition as the exporter sees it: a display name and the opaque
serialization capability `to_load_format(include_linked_id)`.  The payload
type is a parameter because the exporter never inspects the returned mapping
(the job field schema is an external collaborator). -/
structure JobDefinition (α : Type) where
  name : List Char
  to_load_format : Bool → α

/-- One record appended to `duplicate_jobs` (lines 90-95). -/
structure DupRecord where
  name : List Char
  identifier : List Char
  base_key : List Char
deriving DecidableEq

/-- The fixed argument of `raise ValueError(...)` at line 114. -/
def raisedMessage : List Char :=
  ("Duplicate job names detected. Please rename jobs to have unique names.").data

/-- The duplicate-name failure (lines 109-114): the accumulated
`duplicate_jobs` list available at the raise site (the logged `error_message`
interpolates exactly the `name` fields of these records) together with the
message of the raised `ValueError`, which is a fixed string. -/
structure DuplicateJobNameError where
  duplicate_jobs : List DupRecord
  raised_message : List Char
deriving DecidableEq

/-- The schema-reference comment line printed at lines 116-118. -/
def schemaLine : List Char :=
  ("# yaml-language-server: $schema=https://raw.githubusercontent.com/dbt-labs/dbt-jobs-as-code/main/src/dbt_jobs_as_code/schemas/load_job_schema.json").data

/-- The per-job loop of `export_jobs_yml` (lines 80-106): allocate a key,
record a `duplicate_jobs` entry when the loop ran (`counter > 1`, i.e. the
base key was already allocated), add the key to `user_keys`, serialize the
job and optionally apply the template.  `applyTF` stands for
`apply_templated_fields`, a parameter because the pure pipeline treats job
payloads opaquely; `cfg` is the parsed `template_config`, `[]` when no
template file was given (a Python empty dict is falsy). -/
def processJobs {α : Type} (applyTF : α → List (List Char × List Char) → α)
    (cfg : List (List Char × List Char)) (include_linked_id : Bool)
    (used : List (List Char)) :
    List (JobDefinition α) → List (List Char × α) × List DupRecord
  | [] => ([], [])
  | job :: rest =>
    let base_key := normalize_job_name_for_identifier job.name
    let yaml_key := allocKey used base_key
    let job_dict := job.to_load_format include_linked_id
    let job_dict := if cfg = [] then job_dict else applyTF job_dict cfg
    let out := processJobs applyTF cfg include_linked_id (used ++ [yaml_key]) rest
    ((yaml_key, job_dict) :: out.1,
      (if base_key ∈ used then [⟨job.name, yaml_key, base_key⟩] else []) ++ out.2)

/-- `export_jobs_yml` (lines 57-128).  External collaborators are parameters:
`dump` is the `ruamel` YAML serialization of the export document
`{"jobs": entries}` (with the `yaml.width` / `block_seq_indent` settings
folded into it) and `applyTF` is `apply_templated_fields`; the template file
read and parse is external I/O, represented by passing the parsed `cfg`
directly.  The returned list holds the strings printed to stdout in print
order; when the duplicate check fires, the error is raised before any print
statement runs, so nothing is emitted. -/
def export_jobs_yml {α : Type} (applyTF : α → List (List Char × List Char) → α)
    (dump : List (List Char × α) → List Char)
    (jobs : List (JobDefinition α)) (include_linked_id : Bool)
    (cfg : List (List Char × List Char)) :
    List (List Char) × Option DuplicateJobNameError :=
  let out := processJobs applyTF cfg include_linked_id [] jobs
  if out.2 ≠ [] then
    ([], some ⟨out.2, raisedMessage⟩)
  else
    ([schemaLine, [], unescape_curly_braces (dump out.1)], none)

/-! ### Definitions: `apply_templated_fields` (lines 29-54) over a heap

`result = job_dict.copy()` is a shallow copy and `set_nested_value` mutates
nested dicts in place, so Python object identity is observable; values are
modelled with explicit references into a heap of dicts. -/

/-- A Python value stored in a job dictionary: a scalar, or a reference to a
dict living in the heap. -/
inductive PyVal where
  | str : List Char → PyVal
  | int : Int → PyVal
  | ref : Nat → PyVal
deriving DecidableEq

/-- A Python dict: key-value pairs in insertion order. -/
abbrev PyDict := List (List Char × PyVal)

/-- The heap: the dict with address `a` lives at position `a`. -/
abbrev Heap := List PyDict

/-- Python dict assignment `d[k] = v`: overwrite in place (keeping the key's
position) when present, append otherwise. -/
def dictSet (d : PyDict) (k : List Char) (v : PyVal) : PyDict :=
  if d.any (fun kv => kv.1 = k) then
    d.map fun kv => if kv.1 = k then (k, v) else kv
  else d ++ [(k, v)]

/-- `path.split(".")`. -/
def splitOnDot : List Char → List (List Char)
  | [] => [[]]
  | c :: rest =>
    match splitOnDot rest with
    | [] => [[c]]
    | g :: gs => if c = '.' then [] :: g :: gs else (c :: g) :: gs

/-- `set_nested_value(d, path, value)` at dict address `a`: walk every part
but the last, creating an empty dict where a part is absent, then assign the
last part under whatever dict is reached.  Returns `none` when the walk meets
a non-dict value or a dangling address (undefined behaviour in the source; no
claim exercises it). -/
def setNestedValue (h : Heap) (a : Nat) (value : PyVal) :
    List (List Char) → Option Heap
  | [] => none
  | [last] => do
    let d ← h.get? a
    some (h.set a (dictSet d last value))
  | part :: rest => do
    let d ← h.get? a
    match d.lookup part with
    | some (PyVal.ref a2) => setNestedValue h a2 value rest
    | some _ => none
    | none =>
      let a2 := h.length
      let h2 := (h.set a (dictSet d part (PyVal.ref a2))) ++ [([] : PyDict)]
      setNestedValue h2 a2 value rest

/-- `apply_templated_fields(job_dict, template_config)`: shallow-copy the
top-level dict to a fresh address (`result = job_dict.copy()` — the entries,
including references to nested dicts, are copied as they are), then apply
each `(path, value)` pair of the template in order. -/
def apply_templated_fields (h : Heap) (a : Nat) (cfg : List (List Char × PyVal)) :
    Option (Heap × Nat) := do
  let d ← h.get? a
  let ra := h.length
  let hfin ← cfg.foldlM (fun hacc pv => setNestedValue hacc ra pv.2 (splitOnDot pv.1))
    (h ++ [d])
  some (hfin, ra)

/-- Read a nested structure out of the heap (fuel-bounded), to compare the
mapping a result address denotes with a literal expected value. -/
inductive PureVal where
  | str : List Char → PureVal
  | int : Int → PureVal
  | dict : List (List Char × PureVal) → PureVal

/-- Materialize the dict at address `a` as a pure nested value. -/
def materialize (h : Heap) : Nat → Nat → Option PureVal
  | 0, _ => none
  | fuel + 1, a => do
    let d ← h.get? a
    let entries ← d.mapM fun kv =>
      match kv.2 with
      | PyVal.ref a2 => do
        let v ← materialize h fuel a2
        some (kv.1, v)
      | PyVal.str s => some (kv.1, PureVal.str s)
      | PyVal.int n => some (kv.1, PureVal.int n)
    some (PureVal.dict entries)

/-- The heap of the C5 scenario: address 0 is
`jobDict = \x7b"a": \x7b"b": "old", "c": 1\x7d\x7d`, whose key `"a"` refers
to the nested dict at address 1. -/
def h0C5 : Heap :=
  [[(("a").data, PyVal.ref 1)],
   [(("b").data, PyVal.str (("old").data)), (("c").data, PyVal.int 1)]]

/-- The C5 call: `apply_templated_fields(jobDict, \x7b"a.b": "X"\x7d)`. -/
def applyC5 : Option (Heap × Nat) :=
  apply_templated_fields h0C5 0 [(("a.b").data, PyVal.str (("X").data))]

/-- The heap after the C5 call. -/
def h1C5 : Heap := (applyC5.getD ([], 0)).1

/-! ### Theorems: shape of the normalizer -/

theorem mem_substDisallowed_allowed {c : Char} {l : List Char}
    (h : c ∈ substDisallowed l) : isAllowed c = true := by
  simp only [substDisallowed, List.mem_map] at h
  obtain ⟨d, -, rfl⟩ := h
  by_cases hall : isAllowed d = true
  · simp [hall]
  · simp [hall]; decide

theorem mem_collapseUnderscores {c : Char} :
    ∀ {l : List Char}, c ∈ collapseUnderscores l → c ∈ l
  | [], h => by simp [collapseUnderscores] at h
  | [d], h => by simp only [collapseUnderscores] at h; exact h
  | c1 :: c2 :: rest, h => by
    simp only [collapseUnderscores] at h
    split at h
    · exact List.mem_cons_of_mem _ (mem_collapseUnderscores h)
    · rcases List.mem_cons.1 h with h | h
      · exact h ▸ List.mem_cons_self _ _
      · exact List.mem_cons_of_mem _ (mem_collapseUnderscores h)

theorem collapseUnderscores_head? :
    ∀ (c : Char) (l : List Char), (collapseUnderscores (c :: l)).head? = some c
  | _, [] => rfl
  | c1, c2 :: rest => by
    simp only [collapseUnderscores]
    split
    · next hb =>
      simp only [Bool.and_eq_true, decide_eq_true_eq] at hb
      rw [collapseUnderscores_head? c2 rest, hb.1, hb.2]
    · rfl

theorem noDouble_collapseUnderscores : ∀ l : List Char, noDouble (collapseUnderscores l) = true
  | [] => rfl
  | [_] => rfl
  | c1 :: c2 :: rest => by
    simp only [collapseUnderscores]
    split
    · exact noDouble_collapseUnderscores (c2 :: rest)
    · next hb =>
      have hh := collapseUnderscores_head? c2 rest
      have ht := noDouble_collapseUnderscores (c2 :: rest)
      cases hc : collapseUnderscores (c2 :: rest) with
      | nil => simp [noDouble]
      | cons d t =>
        rw [hc] at hh ht
        simp only [List.head?_cons, Option.some.injEq] at hh
        subst hh
        simp only [noDouble, Bool.and_eq_true, Bool.not_eq_true'] at ht ⊢
        refine ⟨?_, ht⟩
        simpa using hb

theorem noDouble_tail {c : Char} {l : List Char} (h : noDouble (c :: l) = true) :
    noDouble l = true := by
  cases l with
  | nil => rfl
  | cons d t => exact (Bool.and_eq_true .. ▸ h).2

theorem noDouble_append_right :
    ∀ (l₁ l₂ : List Char), noDouble (l₁ ++ l₂) = true → noDouble l₂ = true
  | [], _, h => h
  | [c], _, h => noDouble_tail h
  | c1 :: c2 :: rest, l₂, h => by
    simp only [List.cons_append, noDouble, Bool.and_eq_true] at h
    exact noDouble_append_right (c2 :: rest) l₂ h.2

theorem noDouble_append_left :
    ∀ (l₁ l₂ : List Char), noDouble (l₁ ++ l₂) = true → noDouble l₁ = true
  | [], _, _ => rfl
  | [_], _, _ => rfl
  | c1 :: c2 :: rest, l₂, h => by
    simp only [List.cons_append, noDouble, Bool.and_eq_true] at h ⊢
    exact ⟨h.1, noDouble_append_left (c2 :: rest) l₂ h.2⟩

theorem head?_dropWhile_ne {p : Char → Bool} {l : List Char} {x : Char}
    (h : (l.dropWhile p).head? = some x) : p x = false := by
  have hm := List.head?_dropWhile_not p l
  rw [h] at hm
  exact hm

/-- The result of `stripUnderscores` is a prefix of the front-stripped list. -/
theorem stripUnderscores_isPrefix (l : List Char) :
    stripUnderscores l <+: l.dropWhile (· = '_') := by
  unfold stripUnderscores
  have hs : ((l.dropWhile (· = '_')).reverse.dropWhile (· = '_')) <:+
      (l.dropWhile (· = '_')).reverse := List.dropWhile_suffix _
  have := List.reverse_suffix.mp
    (by simpa using hs :
      (((l.dropWhile (· = '_')).reverse.dropWhile (· = '_')).reverse).reverse <:+
        (l.dropWhile (· = '_')).reverse)
  exact this

theorem mem_stripUnderscores {c : Char} {l : List Char}
    (h : c ∈ stripUnderscores l) : c ∈ l := by
  obtain ⟨t, ht⟩ := stripUnderscores_isPrefix l
  have : c ∈ l.dropWhile (· = '_') := ht ▸ List.mem_append_left t h
  exact (List.dropWhile_sublist _).mem this

theorem noDouble_stripUnderscores {l : List Char} (h : noDouble l = true) :
    noDouble (stripUnderscores l) = true := by
  obtain ⟨t, ht⟩ := stripUnderscores_isPrefix l
  obtain ⟨t', ht'⟩ := List.dropWhile_suffix (l := l) (· = '_')
  have h1 : noDouble (l.dropWhile (· = '_')) = true :=
    noDouble_append_right t' _ (by rw [ht']; exact h)
  exact noDouble_append_left _ t (by rw [ht]; exact h1)

theorem stripUnderscores_head?_ne (l : List Char) :
    (stripUnderscores l).head? ≠ some '_' := by
  intro hcontra
  obtain ⟨t, ht⟩ := stripUnderscores_isPrefix l
  have : (l.dropWhile (· = '_')).head? = some '_' := by
    rw [← ht, List.head?_append, hcontra]; rfl
  have := head?_dropWhile_ne this
  simp at this

theorem stripUnderscores_getLast?_ne (l : List Char) :
    (stripUnderscores l).getLast? ≠ some '_' := by
  intro hcontra
  unfold stripUnderscores at hcontra
  rw [List.getLast?_reverse] at hcontra
  have := head?_dropWhile_ne hcontra
  simp at this

/-- The full shape invariant of `normalize_job_name_for_identifier`: every
character is in `[a-z0-9_]`, no two consecutive underscores, and the result
neither starts nor ends with an underscore. -/
theorem normalize_shape (l : List Char) :
    (∀ c ∈ normalize_job_name_for_identifier l, isAllowed c = true) ∧
    noDouble (normalize_job_name_for_identifier l) = true ∧
    (normalize_job_name_for_identifier l).head? ≠ some '_' ∧
    (normalize_job_name_for_identifier l).getLast? ≠ some '_' := by
  unfold normalize_job_name_for_identifier
  refine ⟨?_, ?_, stripUnderscores_head?_ne _, stripUnderscores_getLast?_ne _⟩
  · intro c hc
    exact mem_substDisallowed_allowed (mem_collapseUnderscores (mem_stripUnderscores hc))
  · exact noDouble_stripUnderscores (noDouble_collapseUnderscores _)

theorem toLower_allowed {c : Char} (h : isAllowed c = true) : c.toLower = c := by
  simp only [isAllowed, Bool.or_eq_true, Bool.and_eq_true, decide_eq_true_eq] at h
  have hne : ¬(c.toNat ≥ 65 ∧ c.toNat ≤ 90) := by
    rcases h with (⟨h1, h2⟩ | ⟨h1, h2⟩) | rfl
    · omega
    · omega
    · decide
  simp [Char.toLower, hne]

/-- On a list all of whose characters already lie in `[a-z0-9_]`, the first
three normalization stages are the identity. -/
theorem stages_fix {l : List Char} (h : ∀ c ∈ l, isAllowed c = true) :
    substDisallowed (replaceSpaces (l.map Char.toLower)) = l := by
  unfold substDisallowed replaceSpaces
  rw [List.map_map, List.map_map]
  conv_rhs => rw [← List.map_id l]
  refine List.map_congr_left ?_
  intro c hc
  have hall := h c hc
  simp only [Function.comp_apply, id_eq]
  rw [toLower_allowed hall]
  rw [if_neg (show ¬(c = ' ') from fun e => absurd (e ▸ hall) (by decide))]
  rw [if_pos hall]

theorem collapseUnderscores_eq_self :
    ∀ {l : List Char}, noDouble l = true → collapseUnderscores l = l
  | [], _ => rfl
  | [_], _ => rfl
  | c1 :: c2 :: rest, h => by
    simp only [noDouble, Bool.and_eq_true, Bool.not_eq_true'] at h
    simp only [collapseUnderscores, h.1, Bool.false_eq_true, if_false]
    rw [collapseUnderscores_eq_self h.2]

theorem dropWhile_eq_self_of_head? {p : Char → Bool} {l : List Char}
    (h : ∀ x, l.head? = some x → p x = false) : l.dropWhile p = l := by
  cases l with
  | nil => rfl
  | cons c t => rw [List.dropWhile_cons_of_neg (by simp [h c rfl])]

theorem stripUnderscores_eq_self {l : List Char}
    (hh : l.head? ≠ some '_') (hl : l.getLast? ≠ some '_') :
    stripUnderscores l = l := by
  have hfront : l.dropWhile (· = '_') = l :=
    dropWhile_eq_self_of_head? (fun x hx => by
      simp [show x ≠ '_' from fun e => hh (e ▸ hx)])
  unfold stripUnderscores
  rw [hfront]
  rw [dropWhile_eq_self_of_head? (fun x hx => by
    rw [List.head?_reverse] at hx
    simp [show x ≠ '_' from fun e => hl (e ▸ hx)])]
  exact List.reverse_reverse l

/-- A list already in canonical shape is a fixed point of the normalizer. -/
theorem normalize_fixpoint {l : List Char}
    (h1 : ∀ c ∈ l, isAllowed c = true) (h2 : noDouble l = true)
    (h3 : l.head? ≠ some '_') (h4 : l.getLast? ≠ some '_') :
    normalize_job_name_for_identifier l = l := by
  unfold normalize_job_name_for_identifier
  rw [stages_fix h1, collapseUnderscores_eq_self h2, stripUnderscores_eq_self h3 h4]

/-- C7: `normalize_job_name_for_identifier` is idempotent: for every string
`x`, `normalize (normalize x) = normalize x`. -/
theorem C7_normalize_idempotent (l : List Char) :
    normalize_job_name_for_identifier (normalize_job_name_for_identifier l) =
      normalize_job_name_for_identifier l := by
  obtain ⟨h1, h2, h3, h4⟩ := normalize_shape l
  exact normalize_fixpoint h1 h2 h3 h4

/-- C8: for every string input, the output of `normalize_job_name_for_identifier`
consists only of characters in `[a-z0-9_]`, never contains two consecutive
underscores, and never starts or ends with an underscore (the `head?` and
`getLast?` conditions are vacuously true exactly when the result is the empty
string); in particular `normalize "My Daily Job!!" = "my_daily_job"`. -/
theorem C8_normalize_output_shape (l : List Char) :
    (∀ c ∈ normalize_job_name_for_identifier l, isAllowed c = true) ∧
    noDouble (normalize_job_name_for_identifier l) = true ∧
    (normalize_job_name_for_identifier l).head? ≠ some '_' ∧
    (normalize_job_name_for_identifier l).getLast? ≠ some '_' ∧
    normalize_job_name_for_identifier ("My Daily Job!!").data = ("my_daily_job").data := by
  obtain ⟨h1, h2, h3, h4⟩ := normalize_shape l
  exact ⟨h1, h2, h3, h4, by decide⟩

/-! ### Theorems: the key allocator -/

theorem decVal_append_digit (l : List Char) (c : Char) :
    decVal (l ++ [c]) = decVal l * 10 + (c.toNat - 48) := by
  simp [decVal, List.foldl_append]

theorem digitChar_toNat {d : Nat} (h : d < 10) : (Nat.digitChar d).toNat - 48 = d := by
  interval_cases d <;> decide

theorem decVal_decDigits : ∀ (fuel n : Nat), n < fuel → decVal (decDigits fuel n) = n
  | 0, n, h => absurd h (Nat.not_lt_zero n)
  | fuel + 1, n, h => by
    by_cases h10 : n < 10
    · simp only [decDigits, if_pos h10]
      simp [decVal, digitChar_toNat h10]
    · simp only [decDigits, if_neg h10]
      have hd : n / 10 < n := Nat.div_lt_self (by omega) (by norm_num)
      rw [decVal_append_digit, decVal_decDigits fuel (n / 10) (by omega),
        digitChar_toNat (Nat.mod_lt _ (by norm_num))]
      omega

theorem decRepr_injective : Function.Injective decRepr := by
  intro a b h
  unfold decRepr at h
  calc a = decVal (decDigits (a + 1) a) := (decVal_decDigits _ _ (Nat.lt_succ_self a)).symm
  _ = decVal (decDigits (b + 1) b) := by rw [h]
  _ = b := decVal_decDigits _ _ (Nat.lt_succ_self b)

theorem sfx_inj {base : List Char} {i j : Nat} (h : sfx base i = sfx base j) : i = j := by
  unfold sfx at h
  have h2 := List.append_cancel_left h
  exact decRepr_injective (List.cons.inj h2).2

theorem le_of_mem_cands {base : List Char} {j : Nat} :
    ∀ {fuel counter : Nat}, sfx base j ∈ cands base fuel counter → counter ≤ j
  | 0, _, h => absurd h (List.not_mem_nil _)
  | fuel + 1, counter, h => by
    rcases List.mem_cons.1 h with h | h
    · exact (sfx_inj h).ge
    · exact Nat.le_of_succ_le (le_of_mem_cands h)

theorem length_filter_le_of_imp {α : Type} (P Q : α → Bool)
    (himp : ∀ y, Q y = true → P y = true) :
    ∀ l : List α, (l.filter Q).length ≤ (l.filter P).length := by
  intro l
  induction l with
  | nil => exact Nat.le_refl _
  | cons a t ih =>
    by_cases hq : Q a = true
    · simp only [List.filter_cons, hq, himp a hq, if_true, List.length_cons]
      exact Nat.succ_le_succ ih
    · simp only [List.filter_cons, Bool.eq_false_iff.2 hq, if_false]
      by_cases hp : P a = true
      · simp only [hp, if_true, List.length_cons]
        exact Nat.le_succ_of_le ih
      · simp only [Bool.eq_false_iff.2 hp, if_false]
        exact ih

theorem length_filter_lt {α : Type} (P Q : α → Bool) (x : α) (l : List α)
    (hx : x ∈ l) (hPx : P x = true) (hQx : Q x = false)
    (himp : ∀ y, Q y = true → P y = true) :
    (l.filter Q).length < (l.filter P).length := by
  induction l with
  | nil => cases hx
  | cons a t ih =>
    rcases List.mem_cons.1 hx with rfl | hxt
    · simp only [List.filter_cons, hPx, hQx, if_true, if_false, List.length_cons]
      exact Nat.lt_succ_of_le (length_filter_le_of_imp P Q himp t)
    · by_cases hq : Q a = true
      · simp only [List.filter_cons, hq, himp a hq, if_true, List.length_cons]
        exact Nat.succ_lt_succ (ih hxt)
      · simp only [List.filter_cons, Bool.eq_false_iff.2 hq, if_false]
        by_cases hp : P a = true
        · simp only [hp, if_true, List.length_cons]
          exact Nat.lt_succ_of_lt (ih hxt)
        · simp only [Bool.eq_false_iff.2 hp, if_false]
          exact ih hxt

/-- With enough fuel, the probing loop returns the first suffixed variant
(probing `counter, counter+1, ...`) that is not in the allocated set. -/
theorem allocLoop_spec (used : List (List Char)) (base : List Char) :
    ∀ (fuel counter : Nat),
      (used.filter (· ∈ cands base fuel counter)).length < fuel →
      ∃ k, counter ≤ k ∧ allocLoop used base fuel counter = sfx base k ∧
        sfx base k ∉ used ∧ ∀ j, counter ≤ j → j < k → sfx base j ∈ used
  | 0, _, h => absurd h (Nat.not_lt_zero _)
  | fuel + 1, counter, h => by
    by_cases hmem : sfx base counter ∈ used
    · have hlt : (used.filter (· ∈ cands base fuel (counter + 1))).length < fuel := by
        have := length_filter_lt (· ∈ cands base (fuel + 1) counter)
          (· ∈ cands base fuel (counter + 1)) (sfx base counter) used hmem
          (by simp [cands]) ?_ ?_
        · omega
        · simp only [decide_eq_false_iff_not]
          intro hc
          exact absurd (le_of_mem_cands hc) (by omega)
        · intro y hy
          simp only [decide_eq_true_eq] at hy ⊢
          exact List.mem_cons_of_mem _ hy
      obtain ⟨k, hk1, hk2, hk3, hk4⟩ := allocLoop_spec used base fuel (counter + 1) hlt
      refine ⟨k, by omega, ?_, hk3, ?_⟩
      · simp only [allocLoop, if_pos hmem]
        exact hk2
      · intro j hj1 hj2
        rcases Nat.eq_or_lt_of_le hj1 with rfl | hj
        · exact hmem
        · exact hk4 j hj hj2
    · exact ⟨counter, Nat.le_refl _, by simp only [allocLoop, if_neg hmem],
        hmem, fun j hj1 hj2 => absurd (Nat.lt_of_le_of_lt hj1 hj2) (Nat.lt_irrefl _)⟩

theorem allocKey_spec (used : List (List Char)) (base : List Char) :
    (base ∉ used → allocKey used base = base) ∧
    (base ∈ used → ∃ k, 1 ≤ k ∧ allocKey used base = sfx base k ∧
      sfx base k ∉ used ∧ ∀ j, 1 ≤ j → j < k → sfx base j ∈ used) := by
  constructor
  · intro h; simp only [allocKey, if_neg h]
  · intro h
    have hfuel : (used.filter (· ∈ cands base (used.length + 1) 1)).length < used.length + 1 :=
      Nat.lt_succ_of_le (List.length_filter_le _ _)
    obtain ⟨k, hk1, hk2, hk3, hk4⟩ := allocLoop_spec used base (used.length + 1) 1 hfuel
    exact ⟨k, hk1, by simp only [allocKey, if_pos h]; exact hk2, hk3, hk4⟩

theorem allocKey_not_mem (used : List (List Char)) (base : List Char) :
    allocKey used base ∉ used := by
  by_cases h : base ∈ used
  · obtain ⟨k, -, hk2, hk3, -⟩ := (allocKey_spec used base).2 h
    rw [hk2]; exact hk3
  · rw [(allocKey_spec used base).1 h]; exact h

/-! ### Theorems: the export pipeline -/

theorem processJobs_length {α : Type} (applyTF : α → List (List Char × List Char) → α)
    (cfg : List (List Char × List Char)) (incl : Bool) :
    ∀ (jobs : List (JobDefinition α)) (used : List (List Char)),
      (processJobs applyTF cfg incl used jobs).1.length = jobs.length
  | [], _ => rfl
  | job :: rest, used => by
    simp only [processJobs, List.length_cons]
    rw [processJobs_length applyTF cfg incl rest _]

theorem processJobs_keys_not_mem {α : Type} (applyTF : α → List (List Char × List Char) → α)
    (cfg : List (List Char × List Char)) (incl : Bool) :
    ∀ (jobs : List (JobDefinition α)) (used : List (List Char)) (k : List Char),
      k ∈ (processJobs applyTF cfg incl used jobs).1.map Prod.fst → k ∉ used
  | [], _, k, h => by simp [processJobs] at h
  | job :: rest, used, k, h => by
    simp only [processJobs, List.map_cons, List.mem_cons] at h
    rcases h with rfl | h
    · exact allocKey_not_mem used _
    · intro hk
      exact processJobs_keys_not_mem applyTF cfg incl rest _ k h (List.mem_append_left _ hk)

theorem processJobs_keys_nodup {α : Type} (applyTF : α → List (List Char × List Char) → α)
    (cfg : List (List Char × List Char)) (incl : Bool) :
    ∀ (jobs : List (JobDefinition α)) (used : List (List Char)),
      ((processJobs applyTF cfg incl used jobs).1.map Prod.fst).Nodup
  | [], _ => List.nodup_nil
  | job :: rest, used => by
    simp only [processJobs, List.map_cons, List.nodup_cons]
    refine ⟨?_, processJobs_keys_nodup applyTF cfg incl rest _⟩
    intro hmem
    exact processJobs_keys_not_mem applyTF cfg incl rest _ _ hmem
      (List.mem_append_right _ (List.mem_cons_self _ _))

/-- At every step, the allocated key is `allocKey` of the set of keys already
allocated (initial `used` plus the keys of the preceding jobs). -/
theorem processJobs_key_step {α : Type} (applyTF : α → List (List Char × List Char) → α)
    (cfg : List (List Char × List Char)) (incl : Bool) :
    ∀ (jobs : List (JobDefinition α)) (used : List (List Char)) (i : Nat)
      (job : JobDefinition α), jobs[i]? = some job →
      ((processJobs applyTF cfg incl used jobs).1.map Prod.fst)[i]? =
        some (allocKey
          (used ++ ((processJobs applyTF cfg incl used jobs).1.map Prod.fst).take i)
          (normalize_job_name_for_identifier job.name))
  | [], _, i, job, h => by simp at h
  | j0 :: rest, used, 0, job, h => by
    simp only [List.getElem?_cons_zero, Option.some.injEq] at h
    subst h
    simp [processJobs]
  | j0 :: rest, used, i + 1, job, h => by
    simp only [List.getElem?_cons_succ] at h
    simp only [processJobs, List.map_cons, List.getElem?_cons_succ, List.take_succ_cons]
    rw [processJobs_key_step applyTF cfg incl rest _ i job h]
    congr 2
    simp

/-- `duplicate_jobs` comes back empty iff the base identifiers are pairwise
distinct and none of them collides with a previously allocated key. -/
theorem processJobs_dups_nil_iff {α : Type} (applyTF : α → List (List Char × List Char) → α)
    (cfg : List (List Char × List Char)) (incl : Bool) :
    ∀ (jobs : List (JobDefinition α)) (used : List (List Char)),
      (processJobs applyTF cfg incl used jobs).2 = [] ↔
        ((jobs.map fun j => normalize_job_name_for_identifier j.name).Nodup ∧
          ∀ b ∈ jobs.map fun j => normalize_job_name_for_identifier j.name, b ∉ used)
  | [], used => by simp [processJobs]
  | job :: rest, used => by
    simp only [processJobs, List.map_cons]
    by_cases hmem : normalize_job_name_for_identifier job.name ∈ used
    · simp only [if_pos hmem]
      constructor
      · intro hcontra
        exact absurd hcontra (by simp)
      · rintro ⟨-, hall⟩
        exact absurd hmem (hall _ (List.mem_cons_self _ _))
    · simp only [if_neg hmem, List.nil_append]
      rw [(allocKey_spec used _).1 hmem,
        processJobs_dups_nil_iff applyTF cfg incl rest
          (used ++ [normalize_job_name_for_identifier job.name])]
      constructor
      · rintro ⟨hnd, hall⟩
        refine ⟨List.nodup_cons.2 ⟨?_, hnd⟩, ?_⟩
        · intro hbm
          exact hall _ hbm (List.mem_append_right _ (List.mem_cons_self _ _))
        · intro b hb
          rcases List.mem_cons.1 hb with rfl | hb
          · exact hmem
          · exact fun hbu => hall b hb (List.mem_append_left _ hbu)
      · rintro ⟨hnd, hall⟩
        obtain ⟨hhead, htail⟩ := List.nodup_cons.1 hnd
        refine ⟨htail, fun b hb hbm => ?_⟩
        rcases List.mem_append.1 hbm with hbu | hbs
        · exact hall b (List.mem_cons_of_mem _ hb) hbu
        · rw [List.mem_singleton.1 hbs] at hb
          exact hhead hb

theorem not_nodup_iff_exists_pair {β : Type} (l : List β) :
    ¬ l.Nodup ↔ ∃ (i j : Fin l.length), i.val < j.val ∧ l.get i = l.get j := by
  rw [List.nodup_iff_injective_get]
  constructor
  · intro hni
    unfold Function.Injective at hni
    push_neg at hni
    obtain ⟨i, j, he, hne⟩ := hni
    rcases Nat.lt_trichotomy i.val j.val with h | h | h
    · exact ⟨i, j, h, he⟩
    · exact absurd (Fin.ext h) hne
    · exact ⟨j, i, h, he.symm⟩
  · rintro ⟨i, j, hij, he⟩ hinj
    have := hinj he
    rw [this] at hij
    exact Nat.lt_irrefl _ hij

theorem not_nodup_map_iff {β : Type} (f : β → List Char) (l : List β) :
    ¬ (l.map f).Nodup ↔
      ∃ (i j : Fin l.length), i.val < j.val ∧ f (l.get i) = f (l.get j) := by
  rw [not_nodup_iff_exists_pair]
  constructor
  · rintro ⟨i, j, hij, he⟩
    have hi : i.val < l.length := by simpa using i.isLt
    have hj : j.val < l.length := by simpa using j.isLt
    refine ⟨⟨i.val, hi⟩, ⟨j.val, hj⟩, hij, ?_⟩
    simpa [List.get_eq_getElem] using he
  · rintro ⟨i, j, hij, he⟩
    have hi : i.val < (l.map f).length := by simp
    have hj : j.val < (l.map f).length := by simp
    refine ⟨⟨i.val, hi⟩, ⟨j.val, hj⟩, hij, ?_⟩
    simpa [List.get_eq_getElem] using he

/-- The error branch of `export_jobs_yml`, as a function of the loop output. -/
theorem export_jobs_yml_error_eq {α : Type} (applyTF : α → List (List Char × List Char) → α)
    (dump : List (List Char × α) → List Char) (jobs : List (JobDefinition α))
    (incl : Bool) (cfg : List (List Char × List Char)) :
    (export_jobs_yml applyTF dump jobs incl cfg).2 =
      (if (processJobs applyTF cfg incl [] jobs).2 = [] then none
        else some ⟨(processJobs applyTF cfg incl [] jobs).2, raisedMessage⟩) := by
  by_cases hd : (processJobs applyTF cfg incl [] jobs).2 = [] <;>
    simp [export_jobs_yml, hd]

theorem processJobs_snd_no_template {α : Type}
    (applyTF : α → List (List Char × List Char) → α) (incl : Bool) :
    ∀ (jobs : List (JobDefinition α)) (used : List (List Char)),
      (processJobs applyTF [] incl used jobs).1.map Prod.snd =
        jobs.map fun j => j.to_load_format incl
  | [], _ => rfl
  | job :: rest, used => by
    simp only [processJobs, List.map_cons, if_pos rfl, List.cons.injEq]
    exact ⟨rfl, processJobs_snd_no_template applyTF incl rest _⟩

/-- C1: for the job sequence named `["Build", "Build", "Build"]`, the key
allocator inside export assigns the keys `build`, `build_1`, `build_2` in
order; the export fails with the duplicate-name error whose record list was
accumulated over all three jobs; and the emitted output is empty (neither
the schema comment line nor any YAML text is printed before the failure). -/
theorem C1_triple_build_export {α : Type} (applyTF : α → List (List Char × List Char) → α)
    (dump : List (List Char × α) → List Char) (v1 v2 v3 : Bool → α) (incl : Bool) :
    (processJobs applyTF [] incl []
        [⟨("Build").data, v1⟩, ⟨("Build").data, v2⟩, ⟨("Build").data, v3⟩]).1.map Prod.fst =
      [("build").data, ("build_1").data, ("build_2").data] ∧
    export_jobs_yml applyTF dump
        [⟨("Build").data, v1⟩, ⟨("Build").data, v2⟩, ⟨("Build").data, v3⟩] incl [] =
      ([], some ⟨[⟨("Build").data, ("build_1").data, ("build").data⟩,
                  ⟨("Build").data, ("build_2").data, ("build").data⟩], raisedMessage⟩) :=
  ⟨rfl, rfl⟩

/-- C2 counterexample: for input `["Build", "Build", "Build"]` the raised
duplicate-name error does not name all three offending jobs: its
`duplicate_jobs` list has exactly 2 records (the first `"Build"`, which got
the unsuffixed key, is never recorded), and 2 is not 3. -/
theorem C2_counterexample_two_records :
    ((export_jobs_yml (α := Unit) (fun d _ => d) (fun _ => [])
        [⟨("Build").data, fun _ => ()⟩, ⟨("Build").data, fun _ => ()⟩,
          ⟨("Build").data, fun _ => ()⟩] false []).2.map
        fun e => e.duplicate_jobs.length) = some 2 ∧ (2 : Nat) ≠ 3 :=
  ⟨rfl, by decide⟩

/-- C2 amended: the duplicate-name failure carries the `duplicate_jobs`
records of exactly those jobs whose base key was already allocated — all
offending jobs except the first occurrence of each colliding base — and the
raised `ValueError` message is a fixed string that interpolates no job name;
for `["Build", "Build", "Build"]` the carried names are
`["Build", "Build"]` (two entries, not three). -/
theorem C2_amended_error_contents {α : Type} (applyTF : α → List (List Char × List Char) → α)
    (dump : List (List Char × α) → List Char) (v1 v2 v3 : Bool → α) (incl : Bool) :
    ((export_jobs_yml applyTF dump
        [⟨("Build").data, v1⟩, ⟨("Build").data, v2⟩, ⟨("Build").data, v3⟩] incl []).2.map
        fun e => (e.duplicate_jobs.map DupRecord.name, e.raised_message)) =
      some ([("Build").data, ("Build").data], raisedMessage) ∧
    (∀ (jobs : List (JobDefinition α)) (cfg : List (List Char × List Char))
        (e : DuplicateJobNameError),
      (export_jobs_yml applyTF dump jobs incl cfg).2 = some e →
      e.raised_message = raisedMessage ∧
        e.duplicate_jobs = (processJobs applyTF cfg incl [] jobs).2) := by
  refine ⟨rfl, ?_⟩
  intro jobs cfg e he
  rw [export_jobs_yml_error_eq] at he
  by_cases hd : (processJobs applyTF cfg incl [] jobs).2 = []
  · rw [if_pos hd] at he; cases he
  · rw [if_neg hd] at he
    have := Option.some.inj he
    subst this
    exact ⟨rfl, rfl⟩

/-- C3: `export_jobs_yml` raises the duplicate-name error iff two or more
input jobs normalize to the same base identifier; the check fires only after
the loop has processed every job (the built mapping has one entry per job
even in the failing case), and the error carries the `duplicate_jobs` list
accumulated over the whole run, even though each individual collision was
resolved to a unique key (`processJobs_keys_nodup`). -/
theorem C3_duplicate_error_iff {α : Type} (applyTF : α → List (List Char × List Char) → α)
    (dump : List (List Char × α) → List Char) (jobs : List (JobDefinition α))
    (incl : Bool) (cfg : List (List Char × List Char)) :
    ((export_jobs_yml applyTF dump jobs incl cfg).2.isSome = true ↔
      ∃ (i j : Fin jobs.length), i.val < j.val ∧
        normalize_job_name_for_identifier (jobs.get i).name =
          normalize_job_name_for_identifier (jobs.get j).name) ∧
    (processJobs applyTF cfg incl [] jobs).1.length = jobs.length ∧
    (export_jobs_yml applyTF dump jobs incl cfg).2 =
      (if (processJobs applyTF cfg incl [] jobs).2 = [] then none
        else some ⟨(processJobs applyTF cfg incl [] jobs).2, raisedMessage⟩) := by
  refine ⟨?_, processJobs_length applyTF cfg incl jobs [],
    export_jobs_yml_error_eq applyTF dump jobs incl cfg⟩
  have hiff : (processJobs applyTF cfg incl [] jobs).2 = [] ↔
      (jobs.map fun j => normalize_job_name_for_identifier j.name).Nodup := by
    rw [processJobs_dups_nil_iff]
    simp
  rw [export_jobs_yml_error_eq]
  by_cases hd : (processJobs applyTF cfg incl [] jobs).2 = []
  · simp only [if_pos hd, Option.isSome_none, Bool.false_eq_true, false_iff]
    exact fun hex => (not_nodup_map_iff _ _).2 hex (hiff.1 hd)
  · simp only [if_neg hd, Option.isSome_some, true_iff]
    exact (not_nodup_map_iff _ _).1 fun hnd => hd (hiff.2 hnd)

/-- C6: within one export run the keys of the output mapping are pairwise
distinct; the i-th allocated key is `allocKey` applied to the set of
previously allocated keys; and `allocKey` returns the base identifier when it
is not yet allocated, and otherwise the first suffixed variant
`base_1, base_2, ...` (probing in increasing integer order starting at 1)
that is not already in the allocated set. -/
theorem C6_keys_distinct_first_free {α : Type} (applyTF : α → List (List Char × List Char) → α)
    (cfg : List (List Char × List Char)) (incl : Bool) (jobs : List (JobDefinition α)) :
    ((processJobs applyTF cfg incl [] jobs).1.map Prod.fst).Nodup ∧
    (∀ (i : Nat) (job : JobDefinition α), jobs[i]? = some job →
      ((processJobs applyTF cfg incl [] jobs).1.map Prod.fst)[i]? =
        some (allocKey (((processJobs applyTF cfg incl [] jobs).1.map Prod.fst).take i)
          (normalize_job_name_for_identifier job.name))) ∧
    (∀ (used : List (List Char)) (base : List Char),
      (base ∉ used → allocKey used base = base) ∧
      (base ∈ used → ∃ k, 1 ≤ k ∧ allocKey used base = sfx base k ∧
        sfx base k ∉ used ∧ ∀ j, 1 ≤ j → j < k → sfx base j ∈ used)) := by
  refine ⟨processJobs_keys_nodup applyTF cfg incl jobs [], ?_, allocKey_spec⟩
  intro i job h
  have := processJobs_key_step applyTF cfg incl jobs [] i job h
  rw [List.nil_append] at this
  exact this

/-- C9: when no template file is supplied (`template_config` is empty and
hence falsy), the dictionary inserted into the output under each allocated
key is exactly the mapping returned by that job's
`to_load_format(include_linked_id)` capability, unmodified. -/
theorem C9_no_template_unmodified {α : Type} (applyTF : α → List (List Char × List Char) → α)
    (include_linked_id : Bool) (jobs : List (JobDefinition α)) :
    ((processJobs applyTF [] include_linked_id [] jobs).1.map Prod.snd =
      jobs.map fun j => j.to_load_format include_linked_id) ∧
    (∀ (i : Nat) (job : JobDefinition α) (e : List Char × α),
      jobs[i]? = some job →
      (processJobs applyTF [] include_linked_id [] jobs).1[i]? = some e →
      e.2 = job.to_load_format include_linked_id) := by
  have hmap := processJobs_snd_no_template applyTF include_linked_id jobs []
  refine ⟨hmap, ?_⟩
  intro i job e hj he
  have h1 : ((processJobs applyTF [] include_linked_id [] jobs).1.map Prod.snd)[i]? =
      some e.2 := by
    rw [List.getElem?_map, he]; rfl
  rw [hmap, List.getElem?_map, hj] at h1
  exact (Option.some.inj h1).symm

/-! ### Theorems: the escaping subsystem -/

theorem replaceAllGo_fuel (pat repl : List Char) :
    ∀ (f1 : Nat) (s : List Char) (f2 : Nat), s.length ≤ f1 → s.length ≤ f2 →
      replaceAllGo pat repl f1 s = replaceAllGo pat repl f2 s
  | f1, [], f2, _, _ => by cases f1 <;> cases f2 <;> rfl
  | 0, c :: rest, _, h1, _ => absurd h1 (by simp)
  | _ + 1, c :: rest, 0, _, h2 => absurd h2 (by simp)
  | f1 + 1, c :: rest, f2 + 1, h1, h2 => by
    simp only [List.length_cons] at h1 h2
    simp only [replaceAllGo]
    split
    · next hcond =>
      have hplen : 1 ≤ pat.length := List.length_pos.2 hcond.1
      have hdl : ((c :: rest).drop pat.length).length ≤ f1 := by
        simp only [List.length_drop, List.length_cons]
        omega
      have hdl2 : ((c :: rest).drop pat.length).length ≤ f2 := by
        simp only [List.length_drop, List.length_cons]
        omega
      rw [replaceAllGo_fuel pat repl f1 _ f2 hdl hdl2]
    · rw [replaceAllGo_fuel pat repl f1 rest f2 (by omega) (by omega)]

theorem replaceAll_cons_pos {pat : List Char} (repl : List Char) {c : Char} {rest : List Char}
    (hne : pat ≠ []) (hpre : pat.isPrefixOf (c :: rest) = true) :
    replaceAll pat repl (c :: rest) =
      repl ++ replaceAll pat repl ((c :: rest).drop pat.length) := by
  unfold replaceAll
  have hplen : 1 ≤ pat.length := List.length_pos.2 hne
  simp only [List.length_cons, replaceAllGo, if_pos (And.intro hne hpre)]
  congr 1
  exact replaceAllGo_fuel pat repl rest.length _ _
    (by simp only [List.length_drop, List.length_cons]; omega) (Nat.le_refl _)

theorem replaceAll_cons_neg {pat : List Char} (repl : List Char) {c : Char} {rest : List Char}
    (h : ¬(pat ≠ [] ∧ pat.isPrefixOf (c :: rest) = true)) :
    replaceAll pat repl (c :: rest) = c :: replaceAll pat repl rest := by
  unfold replaceAll
  simp only [List.length_cons, replaceAllGo, if_neg h]

theorem replaceAll_singleton (a : Char) (repl : List Char) :
    ∀ s : List Char, replaceAll [a] repl s =
      s.flatMap fun c => if c = a then repl else [c]
  | [] => rfl
  | c :: rest => by
    by_cases hc : c = a
    · subst hc
      rw [replaceAll_cons_pos repl (by simp) (by simp)]
      simp only [List.length_cons, List.length_nil, List.drop_succ_cons, List.drop_zero]
      rw [replaceAll_singleton _ repl rest]
      simp
    · have hcond : ¬(([a] : List Char) ≠ [] ∧ ([a] : List Char).isPrefixOf (c :: rest) = true) := by
        rintro ⟨-, hpre⟩
        simp only [List.isPrefixOf_cons₂, List.isPrefixOf_nil_left, Bool.and_true,
          beq_iff_eq] at hpre
        exact hc hpre.symm
      rw [replaceAll_cons_neg repl hcond, replaceAll_singleton a repl rest]
      simp [hc]

theorem flatMap_two_stage : ∀ s : List Char,
    ((s.flatMap fun c => if c = '\x7b' then ("<[<").data else [c]).flatMap
      fun c => if c = '\x7d' then (">]>").data else [c]) = s.flatMap escChar
  | [] => rfl
  | c :: rest => by
    simp only [List.flatMap_cons, List.flatMap_append]
    rw [flatMap_two_stage rest]
    congr 1
    by_cases h1 : c = '\x7b'
    · subst h1; rfl
    · by_cases h2 : c = '\x7d'
      · subst h2; rfl
      · simp [escChar, h1, h2]

theorem escape_eq_flatMap (s : List Char) :
    escape_curly_braces s = s.flatMap escChar := by
  unfold escape_curly_braces
  rw [replaceAll_singleton, replaceAll_singleton, flatMap_two_stage]

theorem escape_no_braces (s : List Char) :
    '\x7b' ∉ escape_curly_braces s ∧ '\x7d' ∉ escape_curly_braces s := by
  rw [escape_eq_flatMap]
  constructor
  · intro h
    obtain ⟨a, -, ha⟩ := List.mem_flatMap.1 h
    by_cases h1 : a = '\x7b'
    · subst h1
      rw [show escChar '\x7b' = ("<[<").data from rfl] at ha
      exact absurd ha (by decide)
    · by_cases h2 : a = '\x7d'
      · subst h2
        rw [show escChar '\x7d' = (">]>").data from rfl] at ha
        exact absurd ha (by decide)
      · rw [show escChar a = [a] from by simp [escChar, h1, h2], List.mem_singleton] at ha
        exact h1 ha.symm
  · intro h
    obtain ⟨a, -, ha⟩ := List.mem_flatMap.1 h
    by_cases h1 : a = '\x7b'
    · subst h1
      rw [show escChar '\x7b' = ("<[<").data from rfl] at ha
      exact absurd ha (by decide)
    · by_cases h2 : a = '\x7d'
      · subst h2
        rw [show escChar '\x7d' = (">]>").data from rfl] at ha
        exact absurd ha (by decide)
      · rw [show escChar a = [a] from by simp [escChar, h1, h2], List.mem_singleton] at ha
        exact h2 ha.symm

/-- First unescape pass on escaped text: decodes the left-brace sentinel and
leaves the right-brace sentinel intact, provided the original text contains
no sentinel character. -/
theorem unescape_stage1 : ∀ (s : List Char), '<' ∉ s → '>' ∉ s →
    replaceAll (("<[<").data) ['\x7b'] (s.flatMap escChar) =
      s.flatMap fun c => if c = '\x7d' then (">]>").data else [c]
  | [], _, _ => rfl
  | c :: rest, h1, h2 => by
    have h1r : '<' ∉ rest := fun hm => h1 (List.mem_cons_of_mem _ hm)
    have h2r : '>' ∉ rest := fun hm => h2 (List.mem_cons_of_mem _ hm)
    have hc1 : c ≠ '<' := fun e => h1 (e ▸ List.mem_cons_self _ _)
    by_cases hb : c = '\x7b'
    · subst hb
      rw [show (('\x7b' :: rest).flatMap escChar) = '<' :: '[' :: '<' :: rest.flatMap escChar
        from by simp [escChar]]
      rw [replaceAll_cons_pos _ (by decide) (by simp [List.isPrefixOf])]
      rw [show ((("<[<").data) : List Char).length = 3 from rfl]
      simp only [List.drop_succ_cons, List.drop_zero]
      rw [unescape_stage1 rest h1r h2r]
      simp
    · by_cases hd : c = '\x7d'
      · subst hd
        rw [show (('\x7d' :: rest).flatMap escChar) = '>' :: ']' :: '>' :: rest.flatMap escChar
          from by simp [escChar]]
        rw [replaceAll_cons_neg _ (by
          rintro ⟨-, hpre⟩
          simp [List.isPrefixOf_cons₂] at hpre)]
        rw [replaceAll_cons_neg _ (by
          rintro ⟨-, hpre⟩
          simp [List.isPrefixOf_cons₂] at hpre)]
        rw [replaceAll_cons_neg _ (by
          rintro ⟨-, hpre⟩
          simp [List.isPrefixOf_cons₂] at hpre)]
        rw [unescape_stage1 rest h1r h2r]
        simp
      · rw [show ((c :: rest).flatMap escChar) = c :: rest.flatMap escChar
          from by simp [escChar, hb, hd]]
        rw [replaceAll_cons_neg _ (by
          rintro ⟨-, hpre⟩
          simp only [List.isPrefixOf_cons₂, Bool.and_eq_true, beq_iff_eq] at hpre
          exact hc1 hpre.1.symm)]
        rw [unescape_stage1 rest h1r h2r]
        simp [hd]

/-- Second unescape pass: decodes the right-brace sentinel, provided the
original text contains no `>`. -/
theorem unescape_stage2 : ∀ (s : List Char), '>' ∉ s →
    replaceAll ((">]>").data) ['\x7d']
      (s.flatMap fun c => if c = '\x7d' then (">]>").data else [c]) = s
  | [], _ => rfl
  | c :: rest, h2 => by
    have h2r : '>' ∉ rest := fun hm => h2 (List.mem_cons_of_mem _ hm)
    have hc2 : c ≠ '>' := fun e => h2 (e ▸ List.mem_cons_self _ _)
    by_cases hd : c = '\x7d'
    · subst hd
      rw [show (('\x7d' :: rest).flatMap fun c => if c = '\x7d' then (">]>").data else [c]) =
          '>' :: ']' :: '>' :: (rest.flatMap fun c => if c = '\x7d' then (">]>").data else [c])
        from by simp]
      rw [replaceAll_cons_pos _ (by decide) (by simp [List.isPrefixOf])]
      rw [show (((">]>").data) : List Char).length = 3 from rfl]
      simp only [List.drop_succ_cons, List.drop_zero]
      rw [unescape_stage2 rest h2r]
      rfl
    · rw [show ((c :: rest).flatMap fun c => if c = '\x7d' then (">]>").data else [c]) =
          c :: (rest.flatMap fun c => if c = '\x7d' then (">]>").data else [c])
        from by simp [hd]]
      rw [replaceAll_cons_neg _ (by
        rintro ⟨-, hpre⟩
        simp only [List.isPrefixOf_cons₂, Bool.and_eq_true, beq_iff_eq] at hpre
        exact hc2 hpre.1.symm)]
      rw [unescape_stage2 rest h2r]

/-- C4 counterexample: for the input text `"<[<"` (which contains no curly
brace, balanced or not), escaping leaves it unchanged, but unescaping then
rewrites it to `"\x7b"`, so escape-then-unescape is not the identity on it. -/
theorem C4_counterexample_sentinel_input :
    unescape_curly_braces (escape_curly_braces (("<[<").data)) ≠ ("<[<").data ∧
    unescape_curly_braces (escape_curly_braces (("<[<").data)) = ['\x7b'] :=
  ⟨by decide, by decide⟩

/-- C4, amended: for any input text containing neither of the sentinel
characters `<` and `>`, applying `escape_curly_braces` and then
`unescape_curly_braces` is the identity transformation; and for every input
text whatsoever — sentinel-containing or not — the escaped intermediate text
contains no raw curly brace. -/
theorem C4_escape_unescape_identity (s : List Char) (h1 : '<' ∉ s) (h2 : '>' ∉ s) :
    unescape_curly_braces (escape_curly_braces s) = s ∧
    ∀ t : List Char, '\x7b' ∉ escape_curly_braces t ∧ '\x7d' ∉ escape_curly_braces t := by
  refine ⟨?_, escape_no_braces⟩
  unfold unescape_curly_braces
  rw [escape_eq_flatMap, unescape_stage1 s h1 h2, unescape_stage2 s h2]

theorem C4_escape_unescape_identity_witness :
    ('<' ∉ ("ab \x7b\x7b name \x7d\x7d cd").data ∧ '>' ∉ ("ab \x7b\x7b name \x7d\x7d cd").data) ∧
    (unescape_curly_braces (escape_curly_braces (("ab \x7b\x7b name \x7d\x7d cd").data)) =
        ("ab \x7b\x7b name \x7d\x7d cd").data ∧
      ∀ t : List Char, '\x7b' ∉ escape_curly_braces t ∧ '\x7d' ∉ escape_curly_braces t) :=
  ⟨⟨by decide, by decide⟩, C4_escape_unescape_identity _ (by decide) (by decide)⟩

theorem isPrefixOf_length_le {pat s : List Char} (h : pat.isPrefixOf s = true) :
    pat.length ≤ s.length := by
  rw [ List.isPrefixOf_iff_prefix] at h
  obtain ⟨t, rfl⟩ := h
  simp

theorem isPrefixOf_append_self : ∀ (p t : List Char), p.isPrefixOf (p ++ t) = true
  | [], t => by simp
  | a :: p, t => by simp [isPrefixOf_append_self p t]

theorem length_replaceAll_le (pat repl : List Char) (hle : repl.length ≤ pat.length) :
    ∀ s : List Char, (replaceAll pat repl s).length ≤ s.length
  | [] => Nat.le_refl _
  | c :: rest => by
    by_cases hcond : pat ≠ [] ∧ pat.isPrefixOf (c :: rest) = true
    · rw [replaceAll_cons_pos repl hcond.1 hcond.2]
      have hp := isPrefixOf_length_le hcond.2
      have hrec := length_replaceAll_le pat repl hle ((c :: rest).drop pat.length)
      simp only [List.length_append, List.length_drop, List.length_cons] at *
      omega
    · rw [replaceAll_cons_neg repl hcond]
      have hrec := length_replaceAll_le pat repl hle rest
      simp only [List.length_cons]
      omega
termination_by s => s.length
decreasing_by
  · simp only [List.length_drop, List.length_cons]
    have := List.length_pos.2 hcond.1
    omega
  · simp

theorem length_replaceAll_lt (pat repl : List Char) (hlt : repl.length < pat.length) :
    ∀ (s l r : List Char), s = l ++ pat ++ r → (replaceAll pat repl s).length < s.length
  | [], l, r, he => by
    have : pat.length = 0 := by
      have := congrArg List.length he
      simp only [List.length_nil, List.length_append] at this
      omega
    exfalso
    omega
  | c :: rest, l, r, he => by
    by_cases hcond : pat ≠ [] ∧ pat.isPrefixOf (c :: rest) = true
    · rw [replaceAll_cons_pos repl hcond.1 hcond.2]
      have hp := isPrefixOf_length_le hcond.2
      have hrec := length_replaceAll_le pat repl (Nat.le_of_lt hlt) ((c :: rest).drop pat.length)
      simp only [List.length_append, List.length_drop, List.length_cons] at *
      omega
    · have hpne : pat ≠ [] := by
        intro hp0
        subst hp0
        simp at hlt
      cases l with
      | nil =>
        exfalso
        apply hcond
        refine ⟨hpne, ?_⟩
        simp only [List.nil_append] at he
        rw [he]
        exact isPrefixOf_append_self pat r
      | cons c0 l' =>
        simp only [List.cons_append, List.cons.injEq] at he
        rw [replaceAll_cons_neg repl hcond]
        have hrec := length_replaceAll_lt pat repl hlt rest l' r he.2
        simp only [List.length_cons]
        omega

theorem replaceAll_no_occurrence (pat repl : List Char) :
    ∀ s : List Char, (∀ l r : List Char, s ≠ l ++ pat ++ r) → replaceAll pat repl s = s
  | [], _ => rfl
  | c :: rest, hno => by
    by_cases hcond : pat ≠ [] ∧ pat.isPrefixOf (c :: rest) = true
    · exfalso
      have hpre := hcond.2
      rw [ List.isPrefixOf_iff_prefix] at hpre
      obtain ⟨t, ht⟩ := hpre
      exact hno [] t (by rw [← ht]; simp)
    · rw [replaceAll_cons_neg repl hcond]
      rw [replaceAll_no_occurrence pat repl rest
        (fun l r hc => hno (c :: l) r (by rw [hc]; simp))]

/-- Whenever the serialized text contains either sentinel, unescaping
strictly shortens it (each sentinel occurrence collapses to one character). -/
theorem length_unescape_lt_of_sentinel (t : List Char)
    (h : (∃ l r, t = l ++ ("<[<").data ++ r) ∨ (∃ l r, t = l ++ (">]>").data ++ r)) :
    (unescape_curly_braces t).length < t.length := by
  unfold unescape_curly_braces
  rcases h with ⟨l, r, rfl⟩ | ⟨l, r, rfl⟩
  · have hone := length_replaceAll_lt (("<[<").data) ['\x7b'] (by decide) _ l r rfl
    have htwo := length_replaceAll_le ((">]>").data) ['\x7d'] (by decide)
      (replaceAll (("<[<").data) ['\x7b'] (l ++ ("<[<").data ++ r))
    omega
  · by_cases hocc : ∃ l2 r2, l ++ ((">]>").data) ++ r = l2 ++ ("<[<").data ++ r2
    · obtain ⟨l2, r2, he⟩ := hocc
      have hone := length_replaceAll_lt (("<[<").data) ['\x7b'] (by decide) _ l2 r2 he
      have htwo := length_replaceAll_le ((">]>").data) ['\x7d'] (by decide)
        (replaceAll (("<[<").data) ['\x7b'] (l ++ (">]>").data ++ r))
      omega
    · push_neg at hocc
      rw [replaceAll_no_occurrence _ _ _ hocc]
      exact length_replaceAll_lt ((">]>").data) ['\x7d'] (by decide) _ l r rfl

/-- C10: `unescape_curly_braces` is applied to the serialized text of the
entire export document — job values included, which were never escaped, since
`escape_curly_braces` is applied only to the template file content.  Any
occurrence of the literal sentinel `"<[<"` or `">]>"` in that serialized
text is rewritten (a leading occurrence becomes `"\x7b"` resp. `"\x7d"`),
and a serialized text containing either sentinel is never reproduced
faithfully by the emitted output. -/
theorem C10_unescape_whole_document {α : Type}
    (applyTF : α → List (List Char × List Char) → α)
    (dump : List (List Char × α) → List Char) (jobs : List (JobDefinition α))
    (incl : Bool) (cfg : List (List Char × List Char)) :
    (export_jobs_yml applyTF dump jobs incl cfg =
      if (processJobs applyTF cfg incl [] jobs).2 = [] then
        ([schemaLine, [], unescape_curly_braces (dump (processJobs applyTF cfg incl [] jobs).1)],
          none)
      else ([], some ⟨(processJobs applyTF cfg incl [] jobs).2, raisedMessage⟩)) ∧
    (∀ t : List Char, unescape_curly_braces ((("<[<").data) ++ t) =
      '\x7b' :: unescape_curly_braces t) ∧
    (∀ t : List Char, unescape_curly_braces (((">]>").data) ++ t) =
      '\x7d' :: unescape_curly_braces t) ∧
    (∀ t : List Char,
      ((∃ l r, t = l ++ ("<[<").data ++ r) ∨ (∃ l r, t = l ++ (">]>").data ++ r)) →
      unescape_curly_braces t ≠ t) := by
  refine ⟨?_, ?_, ?_, ?_⟩
  · by_cases hd : (processJobs applyTF cfg incl [] jobs).2 = [] <;>
      simp [export_jobs_yml, hd]
  · intro t
    unfold unescape_curly_braces
    rw [show (("<[<").data) ++ t = '<' :: '[' :: '<' :: t from rfl]
    rw [replaceAll_cons_pos _ (by decide) (by simp [List.isPrefixOf])]
    rw [show ((("<[<").data) : List Char).length = 3 from rfl]
    simp only [List.drop_succ_cons, List.drop_zero]
    rw [show (['\x7b'] : List Char) ++ replaceAll (("<[<").data) ['\x7b'] t =
        '\x7b' :: replaceAll (("<[<").data) ['\x7b'] t from rfl]
    rw [replaceAll_cons_neg _ (by
      rintro ⟨-, hpre⟩
      simp [List.isPrefixOf_cons₂] at hpre)]
  · intro t
    have hU1 : replaceAll (("<[<").data) ['\x7b'] ('>' :: ']' :: '>' :: t) =
        '>' :: ']' :: '>' :: replaceAll (("<[<").data) ['\x7b'] t := by
      rw [replaceAll_cons_neg _ (by
        rintro ⟨-, hpre⟩
        simp [List.isPrefixOf_cons₂] at hpre)]
      rw [replaceAll_cons_neg _ (by
        rintro ⟨-, hpre⟩
        simp [List.isPrefixOf_cons₂] at hpre)]
      rw [replaceAll_cons_neg _ (by
        rintro ⟨-, hpre⟩
        simp [List.isPrefixOf_cons₂] at hpre)]
    unfold unescape_curly_braces
    rw [show ((">]>").data) ++ t = '>' :: ']' :: '>' :: t from rfl, hU1]
    rw [replaceAll_cons_pos _ (by decide) (by simp [List.isPrefixOf])]
    rw [show (((">]>").data) : List Char).length = 3 from rfl]
    simp only [List.drop_succ_cons, List.drop_zero]
    rfl
  · intro t hocc he
    have := length_unescape_lt_of_sentinel t hocc
    rw [he] at this
    exact Nat.lt_irrefl _ this

/-! ### Theorems: `apply_templated_fields` -/

/-- C5 counterexample: at the claim's own input, the nested container at key
`"a"` is touched by the template path `"a.b"` and yet is still shared with
the input — both the original dict (address 0) and the returned dict
(address 2) hold a reference to address 1 — and that shared container was
mutated in place, so after the call the original job dict no longer
materializes with `"b" = "old"`: it materializes exactly like the returned
dict, with `"b" = "X"`.  This refutes "nested containers are shared with the
input only where untouched by any template path". -/
theorem C5_counterexample_shared_mutation :
    (h1C5.get? 2 = some [(("a").data, PyVal.ref 1)] ∧
      h0C5.get? 0 = some [(("a").data, PyVal.ref 1)]) ∧
    materialize h1C5 3 0 ≠ some (PureVal.dict [(("a").data, PureVal.dict
      [(("b").data, PureVal.str (("old").data)), (("c").data, PureVal.int 1)])]) ∧
    materialize h1C5 3 0 = materialize h1C5 3 2 := by
  refine ⟨⟨rfl, rfl⟩, ?_, rfl⟩
  intro hcontra
  have : materialize h1C5 3 0 = some (PureVal.dict [(("a").data, PureVal.dict
      [(("b").data, PureVal.str (("X").data)), (("c").data, PureVal.int 1)])]) := rfl
  rw [this] at hcontra
  simp at hcontra

/-- C5, amended: `apply_templated_fields` with
`templateSpec = \x7b"a.b": "X"\x7d` and
`jobDict = \x7b"a": \x7b"b": "old", "c": 1\x7d\x7d` returns a fresh
top-level mapping that materializes to
`\x7b"a": \x7b"b": "X", "c": 1\x7d\x7d`; the original jobDict remains
unmodified at its top level (same single entry, same child reference); but
nested containers are shared with the input even where touched by a template
path: the walk descends into the very dict the input references and mutates
it in place, so the input's nested dict now carries `"b" = "X"`. -/
theorem C5_apply_templated_fields_result :
    applyC5 = some (h1C5, 2) ∧
    materialize h1C5 3 2 = some (PureVal.dict [(("a").data, PureVal.dict
      [(("b").data, PureVal.str (("X").data)), (("c").data, PureVal.int 1)])]) ∧
    h1C5.get? 0 = some [(("a").data, PyVal.ref 1)] ∧
    h1C5.get? 2 = some [(("a").data, PyVal.ref 1)] ∧
    h1C5.get? 1 = some [(("b").data, PyVal.str (("X").data)), (("c").data, PyVal.int 1)] :=
  ⟨rfl, rfl, rfl, rfl, rfl⟩

end Export
